import Mathlib

/-!
Verification of the tree-identity / snapshot / forwarding-rule core of the
mkdocs-linking repository (file src/algo.py), as a shallow embedding in Lean.

The embedding models:
  * ResourceNode: a tree node with a name, an optional stable identifier
    (the reserved attributes entry under METADATA_KEY; Python represents
    absence as None, and the code tests it with truthiness, so the empty
    string also counts as unassigned), and an ordered list of children.
    Other attribute entries never influence the four core operations, so
    they are not carried in the embedding.
  * Python dicts as insertion-ordered association lists with unique keys:
    dictGet models dict.get, dictInsert models d[k] = v (replacing the value
    in place when the key is present, appending otherwise), dictUpdate
    models d.update(e).
  * assign_keys, create_state_snapshot, generate_forwarding_rules translated
    clause by clause from src/algo.py.  The uuid generator is abstracted as
    a function gen from a counter to a string, threaded in call order.
-/

/-- A snapshot record, the value stored per stable id by
create_state_snapshot: the ancestor-id path (root first, excluding self)
and the node's name at capture time. -/
structure SnapRecord where
  path_to_root : List String
  name : String
deriving DecidableEq, Repr

/-- A node of the resource tree: name, optional stable identifier and
ordered children.  Mirrors class ResourceNode of src/algo.py. -/
inductive ResourceNode where
  | mk (name : String) (stable_id : Option String) (children : List ResourceNode)
deriving Repr

/-- The name of a node. -/
def ResourceNode.name : ResourceNode → String
  | .mk n _ _ => n

/-- The stable identifier slot of a node (attributes.get(METADATA_KEY)). -/
def ResourceNode.stable_id : ResourceNode → Option String
  | .mk _ s _ => s

/-- The children list of a node. -/
def ResourceNode.children : ResourceNode → List ResourceNode
  | .mk _ _ c => c

/-- Python truthiness of the stable id: None and the empty string are
falsy, every other string is truthy.  The code guards assign_keys and
create_state_snapshot with "if not node.stable_id". -/
def idTruthy : Option String → Bool
  | none => false
  | some s => !s.isEmpty

/-- dict.get: the value at the first (unique) occurrence of the key. -/
def dictGet {α β : Type} [DecidableEq α] : List (α × β) → α → Option β
  | [], _ => none
  | (k', v) :: rest, k => if k = k' then some v else dictGet rest k

/-- d[k] = v on a Python dict: replace the value in place when the key is
present, append the binding otherwise. -/
def dictInsert {α β : Type} [DecidableEq α] : List (α × β) → α → β → List (α × β)
  | [], k, v => [(k, v)]
  | (k', v') :: rest, k, v =>
    if k = k' then (k', v) :: rest else (k', v') :: dictInsert rest k v

/-- d.update(e) on Python dicts: insert every binding of e into d in
order, later bindings overwriting earlier values at the same key. -/
def dictUpdate {α β : Type} [DecidableEq α] (d e : List (α × β)) : List (α × β) :=
  e.foldl (fun acc kv => dictInsert acc kv.1 kv.2) d

/-- The key list of an association list. -/
def dictKeys {α β : Type} (d : List (α × β)) : List α := d.map (fun kv => kv.1)

mutual

/-- assign_keys of src/algo.py: pre-order traversal; a node whose stable
id is falsy receives the next generated identifier; then the children are
processed left to right.  The uuid stream is modelled by gen and an
explicit counter threaded in generation order. -/
def assign_keys (gen : Nat → String) : ResourceNode → Nat → ResourceNode × Nat
  | .mk name sid children, c =>
    let p := if idTruthy sid then (sid, c) else (some (gen c), c + 1)
    let q := assignKeysList gen children p.2
    (.mk name p.1 q.1, q.2)

/-- The for-loop of assign_keys over a child list, left to right. -/
def assignKeysList (gen : Nat → String) : List ResourceNode → Nat → List ResourceNode × Nat
  | [], c => ([], c)
  | n :: ns, c =>
    let p := assign_keys gen n c
    let q := assignKeysList gen ns p.2
    (p.1 :: q.1, q.2)

end

mutual

/-- create_state_snapshot of src/algo.py: returns the empty mapping when
the node's stable id is falsy; otherwise starts from the node's own entry
and folds dict.update over the children's recursive snapshots, each child
called with the node's id appended to the path. -/
def create_state_snapshot : ResourceNode → List String → List (String × SnapRecord)
  | .mk name sid children, path =>
    if idTruthy sid then
      snapshotChildren children (path ++ [sid.getD ""])
        [(sid.getD "", ⟨path, name⟩)]
    else []

/-- The for-loop of create_state_snapshot: state_map.update(child_map)
for each child in order. -/
def snapshotChildren : List ResourceNode → List String → List (String × SnapRecord) → List (String × SnapRecord)
  | [], _, acc => acc
  | c :: cs, path, acc =>
    snapshotChildren cs path (dictUpdate acc (create_state_snapshot c path))

end

/-- A Python value occurring inside the hashable encoding of a record:
either a string (the name field) or a tuple of strings (the converted
path_to_root list). -/
inductive PyVal where
  | str : String → PyVal
  | strTup : List String → PyVal
deriving DecidableEq, Repr

/-- The items of a snapshot-record dict in insertion order
(path_to_root first, then name), with lists converted to tuples, exactly
as the generator expression inside generate_forwarding_rules produces
them. -/
def recordItems (r : SnapRecord) : List (String × PyVal) :=
  [("path_to_root", PyVal.strTup r.path_to_root), ("name", PyVal.str r.name)]

/-- Lexicographic comparison of char lists by code point, the order
Python uses on strings. -/
def charListLe : List Char → List Char → Bool
  | [], _ => true
  | _ :: _, [] => false
  | c :: cs, d :: ds =>
    if c.toNat < d.toNat then true
    else if d.toNat < c.toNat then false
    else charListLe cs ds

/-- The comparison Python's sorted uses on the item pairs: tuples compare
by first component first, and the two field names are distinct, so only
the key matters. -/
def itemLe (a b : String × PyVal) : Bool := charListLe a.1.data b.1.data

/-- Stable insertion of an element into a sorted list. -/
def insortItem (x : String × PyVal) : List (String × PyVal) → List (String × PyVal)
  | [] => [x]
  | y :: ys => if itemLe x y then x :: y :: ys else y :: insortItem x ys

/-- Python's sorted over the item list. -/
def sortItems (l : List (String × PyVal)) : List (String × PyVal) :=
  l.foldr insortItem []

/-- The canonical hashable key built by generate_forwarding_rules from a
before-record: tuple(sorted((k, tuple(v) if isinstance(v, list) else v)
for k, v in before_attrs.items())). -/
def encodeRecord (r : SnapRecord) : List (String × PyVal) :=
  sortItems (recordItems r)

/-- The value of a forwarding rule: the dict with the single entry
new_location_key, holding the stable id under which the node now lives. -/
structure Rule where
  new_location_key : String
deriving DecidableEq, Repr

/-- generate_forwarding_rules of src/algo.py: iterate over the before
snapshot in order; skip identifiers absent from after; for changed
records insert a rule keyed by the canonical encoding of the before
record, mapping to the identifier. -/
def generate_forwarding_rules
    (before_state after_state : List (String × SnapRecord)) :
    List (List (String × PyVal) × Rule) :=
  before_state.foldl
    (fun fm kv =>
      match dictGet after_state kv.1 with
      | none => fm
      | some after_attrs =>
        if kv.2 ≠ after_attrs then
          dictInsert fm (encodeRecord kv.2) ⟨kv.1⟩
        else fm)
    []

mutual

/-- The pre-order list of the stable-id slots of every node of a tree. -/
def allIds : ResourceNode → List (Option String)
  | .mk _ sid children => sid :: allIdsList children

/-- allIds over a forest, left to right. -/
def allIdsList : List ResourceNode → List (Option String)
  | [] => []
  | n :: ns => allIds n ++ allIdsList ns

end

/-- The number of nodes of a tree. -/
def nodeCount (t : ResourceNode) : Nat := (allIds t).length

mutual

/-- Every node of the tree carries a truthy (assigned, non-empty)
stable identifier. -/
def allTruthy : ResourceNode → Bool
  | .mk _ sid children => idTruthy sid && allTruthyList children

/-- allTruthy over a forest. -/
def allTruthyList : List ResourceNode → Bool
  | [] => true
  | n :: ns => allTruthy n && allTruthyList ns

end

/-- The id strings of a fully identified tree, in pre-order (reading the
empty string for an unassigned slot; under allTruthy every slot is a
non-empty string). -/
def idStringsOf (t : ResourceNode) : List String :=
  (allIds t).map (fun o => o.getD "")

/-- The truthy identifier strings already present in a list of id slots. -/
def truthyStrs (l : List (Option String)) : List String :=
  l.filterMap (fun o => match o with
    | some s => if s.isEmpty then none else some s
    | none => none)

/-! ## Association-list (Python dict) lemmas -/

/-- The last binding of a key in an arbitrary entry stream: the value the
key holds after all the entries are written into a dict in order. -/
def lookupLast {α β : Type} [DecidableEq α] : List (α × β) → α → Option β
  | [], _ => none
  | (k', v) :: rest, k =>
    match lookupLast rest k with
    | some w => some w
    | none => if k = k' then some v else none

mutual

/-- The raw stream of snapshot entries of a subtree in document order
(self first, then children left to right), before any dict merging:
exactly the entries create_state_snapshot writes, in the order it writes
them.  A node with a falsy id prunes its whole subtree, as in the code. -/
def preorderEntries : ResourceNode → List String → List (String × SnapRecord)
  | .mk name sid children, path =>
    if idTruthy sid then
      (sid.getD "", ⟨path, name⟩) ::
        preorderEntriesList children (path ++ [sid.getD ""])
    else []

/-- preorderEntries over a forest, left to right. -/
def preorderEntriesList : List ResourceNode → List String → List (String × SnapRecord)
  | [], _ => []
  | c :: cs, path => preorderEntries c path ++ preorderEntriesList cs path

end

/-- idStringsOf over a forest. -/
def idStringsOfList (cs : List ResourceNode) : List String :=
  (allIdsList cs).map (fun o => o.getD "")

/-- Occurrence of a node inside a tree: OccursAt t d anc n states that n
sits at depth d below t and the stable-id strings of its ancestors inside
t, from t itself down to n's immediate parent, are anc. -/
inductive OccursAt : ResourceNode → Nat → List String → ResourceNode → Prop where
  | here (t : ResourceNode) : OccursAt t 0 [] t
  | child {t c n : ResourceNode} {d : Nat} {anc : List String}
      (hc : c ∈ t.children) (h : OccursAt c d anc n) :
      OccursAt t (d + 1) (t.stable_id.getD "" :: anc) n

/-- nodeCount over a forest. -/
def nodeCountList (cs : List ResourceNode) : Nat := (allIdsList cs).length

mutual

/-- The first run preserves every already-truthy identifier and every
name, node for node (same shape). -/
def idPreserved : ResourceNode → ResourceNode → Bool
  | .mk nm sid _cs, .mk nm' sid' _cs' =>
    (nm' == nm) && (!idTruthy sid || (sid' == sid)) && idPreservedList _cs _cs'

/-- idPreserved over forests, position by position. -/
def idPreservedList : List ResourceNode → List ResourceNode → Bool
  | [], [] => true
  | c :: cs, c' :: cs' => idPreserved c c' && idPreservedList cs cs'
  | _, _ => false

end

/-- The test applied by generate_forwarding_rules to an entry of the
before snapshot: the identifier is present in the after snapshot and the
record changed. -/
def isChanged (after_state : List (String × SnapRecord))
    (kv : String × SnapRecord) : Bool :=
  match dictGet after_state kv.1 with
  | none => false
  | some a => decide (kv.2 ≠ a)

/-- The before-snapshot entries that are present in the after snapshot
with a different record: the moved-or-renamed-but-not-deleted nodes. -/
def changedEntries (before_state after_state : List (String × SnapRecord)) :
    List (String × SnapRecord) :=
  before_state.filter (isChanged after_state)

/-- The rule stream generate_forwarding_rules writes, one rule per
changed entry, in before-snapshot order. -/
def ruleEntries (before_state after_state : List (String × SnapRecord)) :
    List (List (String × PyVal) × Rule) :=
  (changedEntries before_state after_state).map
    (fun kv => (encodeRecord kv.2, ⟨kv.1⟩))

/-- A concrete injective, never-empty uuid stream for concrete runs. -/
def gen0 : Nat → String := fun n => String.mk (List.replicate (n + 1) 'a')

/-- Before-tree of the collision scenario: a root with two sibling leaves
that share the name "x" but have distinct stable ids. -/
def tColB : ResourceNode :=
  .mk "root" (some "r") [.mk "x" (some "a") [], .mk "x" (some "b") []]

/-- After-tree of the collision scenario: both leaves moved under a new
intermediate node, so both records changed. -/
def tColA : ResourceNode :=
  .mk "root" (some "r") [.mk "c" (some "c") [.mk "x" (some "a") [], .mk "x" (some "b") []]]

/-- The before snapshot of the collision scenario. -/
def beforeCol : List (String × SnapRecord) := create_state_snapshot tColB []

/-- The after snapshot of the collision scenario. -/
def afterCol : List (String × SnapRecord) := create_state_snapshot tColA []

/-- A pair of snapshots with a single moved-or-renamed node. -/
def beforeW : List (String × SnapRecord) :=
  [("r", ⟨[], "root"⟩), ("a", ⟨["r"], "x"⟩)]

/-- The after snapshot of the single-rename scenario. -/
def afterW : List (String × SnapRecord) :=
  [("r", ⟨[], "root"⟩), ("a", ⟨["r"], "y"⟩)]

/-- A two-node tree whose nodes carry the same pre-assigned id "x". -/
def tDup : ResourceNode := .mk "n1" (some "x") [.mk "n2" (some "x") []]

/-- A fully identified three-level tree with distinct ids. -/
def tFull : ResourceNode :=
  .mk "root" (some "r")
    [.mk "a" (some "ida") [.mk "b" (some "idb") []], .mk "c" (some "idc") []]

/-- A tree with one unassigned node above an assigned child. -/
def tPart : ResourceNode := .mk "root" none [.mk "kid" (some "k") []]

/-- A tree with no assigned identifiers at all. -/
def tFresh : ResourceNode := .mk "p" none [.mk "q" none []]

/-- A node whose stable-id slot is absent. -/
def nOrphan : ResourceNode := .mk "orphan" none [.mk "kid" (some "x") []]

theorem dictGet_dictInsert {α β : Type} [DecidableEq α]
    (d : List (α × β)) (k k' : α) (v : β) :
    dictGet (dictInsert d k v) k' = if k' = k then some v else dictGet d k' := by
  induction d with
  | nil => simp [dictInsert, dictGet]
  | cons hd tl ih =>
    obtain ⟨k0, v0⟩ := hd
    by_cases h : k = k0
    · subst h
      by_cases h' : k' = k <;> simp [dictInsert, dictGet, h']
    · by_cases h' : k' = k0
      · subst h'
        simp [dictInsert, dictGet, h, Ne.symm h]
      · simp [dictInsert, dictGet, h, h', ih]

theorem dictInsert_of_not_mem {α β : Type} [DecidableEq α]
    (d : List (α × β)) (k : α) (v : β) (h : k ∉ dictKeys d) :
    dictInsert d k v = d ++ [(k, v)] := by
  induction d with
  | nil => simp [dictInsert]
  | cons hd tl ih =>
    obtain ⟨k0, v0⟩ := hd
    simp only [dictKeys, List.map_cons, List.mem_cons] at h
    push_neg at h
    simp [dictInsert, h.1, ih (by simpa [dictKeys] using h.2)]

theorem dictKeys_dictInsert_of_mem {α β : Type} [DecidableEq α]
    (d : List (α × β)) (k : α) (v : β) (h : k ∈ dictKeys d) :
    dictKeys (dictInsert d k v) = dictKeys d := by
  induction d with
  | nil => simp [dictKeys] at h
  | cons hd tl ih =>
    obtain ⟨k0, v0⟩ := hd
    by_cases h0 : k = k0
    · simp [dictInsert, h0, dictKeys]
    · simp only [dictKeys, List.map_cons, List.mem_cons] at h
      rcases h with h | h
    
      · exact absurd h h0
      · simp [dictInsert, h0, dictKeys]
        simpa [dictKeys] using ih (by simpa [dictKeys] using h)

theorem lookupLast_cons {α β : Type} [DecidableEq α]
    (k0 : α) (v0 : β) (rest : List (α × β)) (k : α) :
    lookupLast ((k0, v0) :: rest) k =
      match lookupLast rest k with
      | some w => some w
      | none => if k = k0 then some v0 else none := rfl

theorem dictGet_dictUpdate {α β : Type} [DecidableEq α]
    (d e : List (α × β)) (k : α) :
    dictGet (dictUpdate d e) k =
      match lookupLast e k with
      | some w => some w
      | none => dictGet d k := by
  induction e generalizing d with
  | nil => simp [dictUpdate, lookupLast]
  | cons hd tl ih =>
    obtain ⟨k1, v1⟩ := hd
    have step : dictUpdate d ((k1, v1) :: tl) = dictUpdate (dictInsert d k1 v1) tl := rfl
    rw [step, ih, lookupLast_cons]
    cases h : lookupLast tl k with
    | some w => simp
    | none =>
      simp only []
      rw [dictGet_dictInsert]
      by_cases hk : k = k1 <;> simp [hk]

theorem dictUpdate_of_disjoint {α β : Type} [DecidableEq α]
    (d e : List (α × β)) (hn : (dictKeys e).Nodup)
    (hd : ∀ k ∈ dictKeys e, k ∉ dictKeys d) :
    dictUpdate d e = d ++ e := by
  induction e generalizing d with
  | nil => simp [dictUpdate]
  | cons hd1 tl ih =>
    obtain ⟨k1, v1⟩ := hd1
    have step : dictUpdate d ((k1, v1) :: tl) = dictUpdate (dictInsert d k1 v1) tl := rfl
    simp only [dictKeys, List.map_cons, List.nodup_cons] at hn
    have hk1 : k1 ∉ dictKeys d := hd k1 (by simp [dictKeys])
    have hdisj : ∀ k ∈ dictKeys tl, k ∉ dictKeys (d ++ [(k1, v1)]) := by
      intro k hk
      have hkd : k ∉ dictKeys d := by
        refine hd k ?_
        simp only [dictKeys, List.map_cons, List.mem_cons]
        exact Or.inr (by simpa [dictKeys] using hk)
      have hkk1 : k ≠ k1 := by
        intro he
        subst he
        exact hn.1 (by simpa [dictKeys] using hk)
      simp [dictKeys, hkd, hkk1]
      intro x hx
      exact hkd (List.mem_map_of_mem (fun kv => kv.1) hx)
    rw [step, dictInsert_of_not_mem d k1 v1 hk1, ih (d ++ [(k1, v1)]) hn.2 hdisj]
    simp

theorem dictGet_append {α β : Type} [DecidableEq α]
    (d e : List (α × β)) (k : α) :
    dictGet (d ++ e) k =
      match dictGet d k with
      | some w => some w
      | none => dictGet e k := by
  induction d with
  | nil => simp [dictGet]
  | cons hd tl ih =>
    obtain ⟨k0, v0⟩ := hd
    by_cases h : k = k0 <;> simp [dictGet, h, ih]

theorem dictGet_eq_some_of_mem {α β : Type} [DecidableEq α]
    (d : List (α × β)) (k : α) (v : β) (hn : (dictKeys d).Nodup)
    (h : (k, v) ∈ d) : dictGet d k = some v := by
  induction d with
  | nil => simp at h
  | cons hd tl ih =>
    obtain ⟨k0, v0⟩ := hd
    simp only [List.mem_cons] at h
    simp only [dictKeys, List.map_cons, List.nodup_cons] at hn
    rcases h with h | h
    · rw [Prod.mk.injEq] at h
      obtain ⟨h1, h2⟩ := h
      subst h1; subst h2
      simp [dictGet]
    · have hk : k ≠ k0 := by
        intro he
        subst he
        exact hn.1 (by simpa [dictKeys] using List.mem_map_of_mem (fun kv => kv.1) h)
      simp [dictGet, hk, ih hn.2 h]

theorem mem_of_dictGet_eq_some {α β : Type} [DecidableEq α]
    (d : List (α × β)) (k : α) (v : β) (h : dictGet d k = some v) :
    (k, v) ∈ d := by
  induction d with
  | nil => simp [dictGet] at h
  | cons hd tl ih =>
    obtain ⟨k0, v0⟩ := hd
    by_cases hk : k = k0
    · subst hk
      simp [dictGet] at h
      simp [h]
    · simp [dictGet, hk] at h
      simp [ih h]

/-! ## Snapshot entries in document order -/

theorem lookupLast_append {α β : Type} [DecidableEq α]
    (a b : List (α × β)) (k : α) :
    lookupLast (a ++ b) k =
      match lookupLast b k with
      | some w => some w
      | none => lookupLast a k := by
  induction a with
  | nil =>
    cases h : lookupLast b k <;> simp [lookupLast, h]
  | cons hd tl ih =>
    obtain ⟨k0, v0⟩ := hd
    rw [List.cons_append, lookupLast_cons, ih, lookupLast_cons]
    cases h : lookupLast b k <;> cases h' : lookupLast tl k <;> simp

theorem lookupLast_eq_none_of_not_mem {α β : Type} [DecidableEq α]
    (d : List (α × β)) (k : α) (h : k ∉ dictKeys d) :
    lookupLast d k = none := by
  induction d with
  | nil => rfl
  | cons hd tl ih =>
    obtain ⟨k0, v0⟩ := hd
    simp only [dictKeys, List.map_cons, List.mem_cons] at h
    push_neg at h
    rw [lookupLast_cons, ih (by simpa [dictKeys] using h.2)]
    simp [h.1]

theorem dictGet_eq_none_of_not_mem {α β : Type} [DecidableEq α]
    (d : List (α × β)) (k : α) (h : k ∉ dictKeys d) :
    dictGet d k = none := by
  induction d with
  | nil => rfl
  | cons hd tl ih =>
    obtain ⟨k0, v0⟩ := hd
    simp only [dictKeys, List.map_cons, List.mem_cons] at h
    push_neg at h
    simp [dictGet, h.1, ih (by simpa [dictKeys] using h.2)]

theorem lookupLast_eq_dictGet_of_nodup {α β : Type} [DecidableEq α]
    (d : List (α × β)) (k : α) (hn : (dictKeys d).Nodup) :
    lookupLast d k = dictGet d k := by
  induction d with
  | nil => rfl
  | cons hd tl ih =>
    obtain ⟨k0, v0⟩ := hd
    simp only [dictKeys, List.map_cons, List.nodup_cons] at hn
    rw [lookupLast_cons, ih hn.2]
    by_cases hk : k = k0
    · subst hk
      rw [dictGet_eq_none_of_not_mem tl k (by simpa [dictKeys] using hn.1)]
      simp [dictGet]
    · cases h : dictGet tl k <;> simp [dictGet, hk, h]

theorem dictKeys_dictInsert_nodup {α β : Type} [DecidableEq α]
    (d : List (α × β)) (k : α) (v : β) (hn : (dictKeys d).Nodup) :
    (dictKeys (dictInsert d k v)).Nodup := by
  by_cases h : k ∈ dictKeys d
  · rw [dictKeys_dictInsert_of_mem d k v h]
    exact hn
  · rw [dictInsert_of_not_mem d k v h]
    simp only [dictKeys, List.map_append]
    simp [List.nodup_append, hn]
    constructor
    · exact hn
    · simpa [dictKeys] using h

theorem dictKeys_dictUpdate_nodup {α β : Type} [DecidableEq α]
    (d e : List (α × β)) (hn : (dictKeys d).Nodup) :
    (dictKeys (dictUpdate d e)).Nodup := by
  induction e generalizing d with
  | nil => exact hn
  | cons hd tl ih =>
    obtain ⟨k1, v1⟩ := hd
    exact ih (dictInsert d k1 v1) (dictKeys_dictInsert_nodup d k1 v1 hn)

mutual

theorem snapshot_keys_nodup (t : ResourceNode) (path : List String) :
    (dictKeys (create_state_snapshot t path)).Nodup := by
  obtain ⟨name, sid, children⟩ := t
  rw [create_state_snapshot]
  by_cases h : idTruthy sid
  · simp only [h, if_pos]
    exact snapshotChildren_keys_nodup children (path ++ [sid.getD ""])
      [(sid.getD "", ⟨path, name⟩)] (by simp [dictKeys])
  · simp [h, dictKeys]

theorem snapshotChildren_keys_nodup (cs : List ResourceNode) (path : List String)
    (acc : List (String × SnapRecord)) (hn : (dictKeys acc).Nodup) :
    (dictKeys (snapshotChildren cs path acc)).Nodup := by
  match cs with
  | [] => exact hn
  | c :: cs' =>
    rw [snapshotChildren]
    exact snapshotChildren_keys_nodup cs' path _
      (dictKeys_dictUpdate_nodup acc (create_state_snapshot c path) hn)

end

mutual

theorem snapshot_dictGet_eq_lookupLast (t : ResourceNode) (path : List String) (k : String) :
    dictGet (create_state_snapshot t path) k = lookupLast (preorderEntries t path) k := by
  obtain ⟨name, sid, children⟩ := t
  rw [create_state_snapshot, preorderEntries]
  by_cases h : idTruthy sid
  · simp only [h, if_pos]
    rw [snapshotChildren_dictGet children (path ++ [sid.getD ""])
      [(sid.getD "", ⟨path, name⟩)] k, lookupLast_cons]
    cases hc : lookupLast (preorderEntriesList children (path ++ [sid.getD ""])) k <;>
      simp [dictGet]
  · simp [h, dictGet, lookupLast]

theorem snapshotChildren_dictGet (cs : List ResourceNode) (path : List String)
    (acc : List (String × SnapRecord)) (k : String) :
    dictGet (snapshotChildren cs path acc) k =
      match lookupLast (preorderEntriesList cs path) k with
      | some w => some w
      | none => dictGet acc k := by
  match cs with
  | [] => rw [snapshotChildren, preorderEntriesList]; rfl
  | c :: cs' =>
    rw [snapshotChildren, preorderEntriesList,
      snapshotChildren_dictGet cs' path _ k, lookupLast_append,
      dictGet_dictUpdate]
    rw [lookupLast_eq_dictGet_of_nodup _ k (snapshot_keys_nodup c path),
      snapshot_dictGet_eq_lookupLast c path k]
    cases h1 : lookupLast (preorderEntriesList cs' path) k <;>
      cases h2 : lookupLast (preorderEntries c path) k <;> simp

end

/-! ## Fully identified trees: snapshot completeness and path correctness -/

theorem allTruthy_of_mem {cs : List ResourceNode} {c : ResourceNode}
    (h : allTruthyList cs = true) (hc : c ∈ cs) : allTruthy c = true := by
  induction cs with
  | nil => simp at hc
  | cons c0 cs' ih =>
    rw [allTruthyList, Bool.and_eq_true] at h
    rcases List.mem_cons.mp hc with h0 | h0
    · subst h0; exact h.1
    · exact ih h.2 h0

theorem mem_idStringsOfList_of_mem {cs : List ResourceNode} {c : ResourceNode}
    {x : String} (hc : c ∈ cs) (hx : x ∈ idStringsOf c) : x ∈ idStringsOfList cs := by
  induction cs with
  | nil => simp at hc
  | cons c0 cs' ih =>
    have step : idStringsOfList (c0 :: cs') = idStringsOf c0 ++ idStringsOfList cs' := by
      simp [idStringsOfList, idStringsOf, allIdsList]
    rw [step, List.mem_append]
    rcases List.mem_cons.mp hc with h0 | h0
    · subst h0; exact Or.inl hx
    · exact Or.inr (ih h0)

mutual

theorem preorderEntries_keys (t : ResourceNode) (path : List String)
    (h : allTruthy t = true) :
    dictKeys (preorderEntries t path) = idStringsOf t := by
  obtain ⟨name, sid, children⟩ := t
  rw [allTruthy, Bool.and_eq_true] at h
  rw [preorderEntries]
  simp only [h.1, if_pos]
  have := preorderEntriesList_keys children (path ++ [sid.getD ""]) h.2
  simp [dictKeys, idStringsOf, allIds] at this ⊢
  simpa [dictKeys, idStringsOfList] using this

theorem preorderEntriesList_keys (cs : List ResourceNode) (path : List String)
    (h : allTruthyList cs = true) :
    dictKeys (preorderEntriesList cs path) = idStringsOfList cs := by
  match cs with
  | [] => rfl
  | c :: cs' =>
    rw [allTruthyList, Bool.and_eq_true] at h
    rw [preorderEntriesList]
    have step : idStringsOfList (c :: cs') = idStringsOf c ++ idStringsOfList cs' := by
      simp [idStringsOfList, idStringsOf, allIdsList]
    rw [step, ← preorderEntries_keys c path h.1, ← preorderEntriesList_keys cs' path h.2]
    simp [dictKeys]

end

theorem preorderEntries_length (t : ResourceNode) (path : List String)
    (h : allTruthy t = true) :
    (preorderEntries t path).length = nodeCount t := by
  have hk := preorderEntries_keys t path h
  have h1 : (dictKeys (preorderEntries t path)).length = (preorderEntries t path).length := by
    simp [dictKeys]
  have h2 : (idStringsOf t).length = nodeCount t := by
    simp [idStringsOf, nodeCount]
  rw [← h1, hk, h2]

mutual

theorem snapshot_eq_preorderEntries (t : ResourceNode) (path : List String)
    (hn : (dictKeys (preorderEntries t path)).Nodup) :
    create_state_snapshot t path = preorderEntries t path := by
  obtain ⟨name, sid, children⟩ := t
  rw [preorderEntries] at hn ⊢
  rw [create_state_snapshot]
  by_cases h : idTruthy sid
  · simp only [h, if_pos] at hn ⊢
    have hcons : dictKeys ((sid.getD "", (⟨path, name⟩ : SnapRecord)) ::
        preorderEntriesList children (path ++ [sid.getD ""])) =
        sid.getD "" :: dictKeys (preorderEntriesList children (path ++ [sid.getD ""])) := rfl
    rw [hcons, List.nodup_cons] at hn
    have hn' : (dictKeys (preorderEntriesList children (path ++ [sid.getD ""]))).Nodup := hn.2
    have hhd : sid.getD "" ∉ dictKeys (preorderEntriesList children (path ++ [sid.getD ""])) := hn.1
    rw [snapshotChildren_eq_append children (path ++ [sid.getD ""])
      [(sid.getD "", ⟨path, name⟩)] hn' ?_]
    · simp
    · intro k hk
      simp only [dictKeys, List.map_cons, List.map_nil, List.mem_singleton]
      intro he
      subst he
      exact hhd hk
  · simp [h]

theorem snapshotChildren_eq_append (cs : List ResourceNode) (path : List String)
    (acc : List (String × SnapRecord))
    (hn : (dictKeys (preorderEntriesList cs path)).Nodup)
    (hd : ∀ k ∈ dictKeys (preorderEntriesList cs path), k ∉ dictKeys acc) :
    snapshotChildren cs path acc = acc ++ preorderEntriesList cs path := by
  match cs with
  | [] => rw [snapshotChildren, preorderEntriesList]; simp
  | c :: cs' =>
    rw [snapshotChildren, preorderEntriesList] at *
    have hkeys : dictKeys (preorderEntries c path ++ preorderEntriesList cs' path) =
        dictKeys (preorderEntries c path) ++ dictKeys (preorderEntriesList cs' path) := by
      simp [dictKeys]
    rw [hkeys] at hn hd
    have hc_nodup : (dictKeys (preorderEntries c path)).Nodup :=
      (List.nodup_append.mp hn).1
    have hcs_nodup : (dictKeys (preorderEntriesList cs' path)).Nodup :=
      (List.nodup_append.mp hn).2.1
    have hdisj := (List.nodup_append.mp hn).2.2
    have hsnap : create_state_snapshot c path = preorderEntries c path :=
      snapshot_eq_preorderEntries c path hc_nodup
    have hupd : dictUpdate acc (create_state_snapshot c path) =
        acc ++ preorderEntries c path := by
      rw [hsnap]
      exact dictUpdate_of_disjoint acc _ hc_nodup
        (fun k hk => hd k (List.mem_append.mpr (Or.inl hk)))
    rw [hupd, snapshotChildren_eq_append cs' path (acc ++ preorderEntries c path)
      hcs_nodup ?_]
    · simp
    · intro k hk
      simp only [dictKeys, List.map_append, List.mem_append]
      push_neg
      constructor
      · simpa [dictKeys] using hd k (List.mem_append.mpr (Or.inr hk))
      · intro hmem
        exact hdisj hmem hk

end

theorem OccursAt.length_eq {t n : ResourceNode} {d : Nat} {anc : List String}
    (h : OccursAt t d anc n) : anc.length = d := by
  induction h with
  | here => rfl
  | child hc h ih => simp [ih]

theorem occurs_mem_idStrings {t n : ResourceNode} {d : Nat} {anc : List String}
    (h : OccursAt t d anc n) : n.stable_id.getD "" ∈ idStringsOf t := by
  induction h with
  | here t =>
    obtain ⟨name, sid, children⟩ := t
    simp [idStringsOf, allIds, ResourceNode.stable_id]
  | child hc h ih =>
    rename_i t c n d anc
    obtain ⟨name, sid, children⟩ := t
    simp only [ResourceNode.children] at hc
    have : n.stable_id.getD "" ∈ idStringsOfList children :=
      mem_idStringsOfList_of_mem hc ih
    simp [idStringsOf, allIds, idStringsOfList] at this ⊢
    right
    simpa [idStringsOfList] using this

theorem mem_keys_entriesList_of_mem {cs : List ResourceNode} {c : ResourceNode}
    (path : List String) {k : String} (hc : c ∈ cs)
    (hk : k ∈ dictKeys (preorderEntries c path)) :
    k ∈ dictKeys (preorderEntriesList cs path) := by
  induction cs with
  | nil => simp at hc
  | cons c0 cs' ih =>
    have step : dictKeys (preorderEntriesList (c0 :: cs') path) =
        dictKeys (preorderEntries c0 path) ++ dictKeys (preorderEntriesList cs' path) := by
      rw [preorderEntriesList]; simp [dictKeys]
    rw [step, List.mem_append]
    rcases List.mem_cons.mp hc with h0 | h0
    · subst h0; exact Or.inl hk
    · exact Or.inr (ih h0)

theorem entriesList_dictGet_of_mem {cs : List ResourceNode} {c : ResourceNode}
    (path : List String) {k : String} {v : SnapRecord} (hc : c ∈ cs)
    (hn : (dictKeys (preorderEntriesList cs path)).Nodup)
    (hk : k ∈ dictKeys (preorderEntries c path))
    (hget : dictGet (preorderEntries c path) k = some v) :
    dictGet (preorderEntriesList cs path) k = some v := by
  induction cs with
  | nil => simp at hc
  | cons c0 cs' ih =>
    have step : dictKeys (preorderEntriesList (c0 :: cs') path) =
        dictKeys (preorderEntries c0 path) ++ dictKeys (preorderEntriesList cs' path) := by
      rw [preorderEntriesList]; simp [dictKeys]
    rw [step] at hn
    obtain ⟨hn0, hn1, hdisj⟩ := List.nodup_append.mp hn
    rw [preorderEntriesList, dictGet_append]
    rcases List.mem_cons.mp hc with h0 | h0
    · subst h0
      rw [hget]
    · have hnot : k ∉ dictKeys (preorderEntries c0 path) := by
        intro hmem
        exact hdisj hmem (mem_keys_entriesList_of_mem path h0 hk)
      rw [dictGet_eq_none_of_not_mem _ k hnot, ih h0 hn1]

theorem nodup_idStringsOf_of_mem {cs : List ResourceNode} {c : ResourceNode}
    (hc : c ∈ cs) (hn : (idStringsOfList cs).Nodup) : (idStringsOf c).Nodup := by
  induction cs with
  | nil => simp at hc
  | cons c0 cs' ih =>
    have step : idStringsOfList (c0 :: cs') = idStringsOf c0 ++ idStringsOfList cs' := by
      simp [idStringsOfList, idStringsOf, allIdsList]
    rw [step] at hn
    obtain ⟨h1, h2, _⟩ := List.nodup_append.mp hn
    rcases List.mem_cons.mp hc with h0 | h0
    · subst h0; exact h1
    · exact ih h0 h2

theorem preorderEntries_dictGet_of_occurs {t n : ResourceNode} {d : Nat}
    {anc : List String} (ho : OccursAt t d anc n) :
    ∀ path, allTruthy t = true →
    (dictKeys (preorderEntries t path)).Nodup →
    dictGet (preorderEntries t path) (n.stable_id.getD "") =
      some ⟨path ++ anc, n.name⟩ := by
  induction ho with
  | here t =>
    intro path ht hn
    obtain ⟨name, sid, children⟩ := t
    rw [allTruthy, Bool.and_eq_true] at ht
    rw [preorderEntries]
    simp only [ht.1, if_pos]
    simp [dictGet, ResourceNode.stable_id, ResourceNode.name]
  | child hc h ih =>
    rename_i t c n dd anc
    intro path ht hn
    obtain ⟨name, sid, children⟩ := t
    simp only [ResourceNode.children] at hc
    rw [allTruthy, Bool.and_eq_true] at ht
    rw [preorderEntries] at hn ⊢
    simp only [ht.1, if_pos] at hn ⊢
    have hcons : dictKeys ((sid.getD "", (⟨path, name⟩ : SnapRecord)) ::
        preorderEntriesList children (path ++ [sid.getD ""])) =
        sid.getD "" :: dictKeys (preorderEntriesList children (path ++ [sid.getD ""])) := rfl
    rw [hcons, List.nodup_cons] at hn
    have hcn : (dictKeys (preorderEntriesList children (path ++ [sid.getD ""]))).Nodup := hn.2
    have hct : allTruthy c = true := allTruthy_of_mem ht.2 hc
    have hckeys : dictKeys (preorderEntries c (path ++ [sid.getD ""])) = idStringsOf c :=
      preorderEntries_keys c _ hct
    have hcnodup : (dictKeys (preorderEntries c (path ++ [sid.getD ""]))).Nodup := by
      have hsplit := preorderEntriesList_keys children (path ++ [sid.getD ""]) ht.2
      rw [hsplit] at hcn
      rw [hckeys]
      -- idStringsOf c is a sublist of idStringsOfList children
      have hsub : ∀ x ∈ idStringsOf c, x ∈ idStringsOfList children :=
        fun x hx => mem_idStringsOfList_of_mem hc hx
      exact nodup_idStringsOf_of_mem hc hcn
    have hgetc := ih (path ++ [sid.getD ""]) hct hcnodup
    have hmemc : n.stable_id.getD "" ∈ dictKeys (preorderEntries c (path ++ [sid.getD ""])) := by
      rw [hckeys]
      exact occurs_mem_idStrings h
    have hgetl := entriesList_dictGet_of_mem (path ++ [sid.getD ""]) hc hcn hmemc hgetc
    have hmeml : n.stable_id.getD "" ∈
        dictKeys (preorderEntriesList children (path ++ [sid.getD ""])) :=
      mem_keys_entriesList_of_mem (path ++ [sid.getD ""]) hc hmemc
    have hne : n.stable_id.getD "" ≠ sid.getD "" := fun he => hn.1 (he ▸ hmeml)
    rw [dictGet, if_neg hne, hgetl]
    simp [ResourceNode.stable_id]

/-! ## Identity assignment: totality of ids, idempotence, preservation -/

mutual

theorem assign_keys_allTruthy (gen : Nat → String) (hg : ∀ n, gen n ≠ "")
    (t : ResourceNode) (c : Nat) : allTruthy (assign_keys gen t c).1 = true := by
  obtain ⟨name, sid, children⟩ := t
  by_cases h : idTruthy sid
  · simp only [assign_keys, h, if_pos, allTruthy, Bool.and_eq_true]
    exact ⟨trivial, assignKeysList_allTruthy gen hg children c⟩
  · simp only [assign_keys, h, if_neg, Bool.false_eq_true, not_false_eq_true,
      allTruthy, Bool.and_eq_true]
    refine ⟨?_, assignKeysList_allTruthy gen hg children (c + 1)⟩
    have hne := hg c
    simp only [idTruthy, Bool.not_eq_true']
    simp [String.isEmpty, String.endPos_eq_zero, hne]

theorem assignKeysList_allTruthy (gen : Nat → String) (hg : ∀ n, gen n ≠ "")
    (cs : List ResourceNode) (c : Nat) :
    allTruthyList (assignKeysList gen cs c).1 = true := by
  match cs with
  | [] => rfl
  | n :: ns =>
    simp only [assignKeysList, allTruthyList, Bool.and_eq_true]
    exact ⟨assign_keys_allTruthy gen hg n c,
      assignKeysList_allTruthy gen hg ns (assign_keys gen n c).2⟩

end

mutual

theorem assign_keys_noop (gen : Nat → String) (t : ResourceNode) (c : Nat)
    (h : allTruthy t = true) : assign_keys gen t c = (t, c) := by
  obtain ⟨name, sid, children⟩ := t
  rw [allTruthy, Bool.and_eq_true] at h
  simp only [assign_keys, h.1, if_pos]
  rw [assignKeysList_noop gen children c h.2]

theorem assignKeysList_noop (gen : Nat → String) (cs : List ResourceNode) (c : Nat)
    (h : allTruthyList cs = true) : assignKeysList gen cs c = (cs, c) := by
  match cs with
  | [] => rfl
  | n :: ns =>
    rw [allTruthyList, Bool.and_eq_true] at h
    simp only [assignKeysList]
    rw [assign_keys_noop gen n c h.1]
    simp only []
    rw [assignKeysList_noop gen ns c h.2]

end

mutual

theorem assign_keys_preserves (gen : Nat → String) (t : ResourceNode) (c : Nat) :
    idPreserved t (assign_keys gen t c).1 = true := by
  obtain ⟨name, sid, children⟩ := t
  by_cases h : idTruthy sid
  · simp only [assign_keys, h, if_pos, idPreserved, Bool.and_eq_true, beq_self_eq_true]
    exact ⟨⟨trivial, by simp⟩, assignKeysList_preserves gen children c⟩
  · have hf : idTruthy sid = false := by
      cases hh : idTruthy sid
      · rfl
      · exact absurd hh h
    simp only [assign_keys, h, if_neg, Bool.false_eq_true, not_false_eq_true,
      idPreserved, Bool.and_eq_true, beq_self_eq_true]
    exact ⟨⟨trivial, by simp [hf]⟩, assignKeysList_preserves gen children (c + 1)⟩

theorem assignKeysList_preserves (gen : Nat → String) (cs : List ResourceNode) (c : Nat) :
    idPreservedList cs (assignKeysList gen cs c).1 = true := by
  match cs with
  | [] => rfl
  | n :: ns =>
    simp only [assignKeysList, idPreservedList, Bool.and_eq_true]
    exact ⟨assign_keys_preserves gen n c,
      assignKeysList_preserves gen ns (assign_keys gen n c).2⟩

end

mutual

theorem assign_keys_counter_le (gen : Nat → String) (t : ResourceNode) (c : Nat) :
    (assign_keys gen t c).2 ≤ c + nodeCount t := by
  obtain ⟨name, sid, children⟩ := t
  have hcount : nodeCount (.mk name sid children) = 1 + nodeCountList children := by
    simp only [nodeCount, allIds, nodeCountList, List.length_cons]
    omega
  by_cases h : idTruthy sid
  · simp only [assign_keys, h, if_pos]
    have := assignKeysList_counter_le gen children c
    omega
  · simp only [assign_keys, h, if_neg, Bool.false_eq_true, not_false_eq_true]
    have := assignKeysList_counter_le gen children (c + 1)
    omega

theorem assignKeysList_counter_le (gen : Nat → String) (cs : List ResourceNode) (c : Nat) :
    (assignKeysList gen cs c).2 ≤ c + nodeCountList cs := by
  match cs with
  | [] => simp [assignKeysList, nodeCountList, allIdsList]
  | n :: ns =>
    have hcount : nodeCountList (n :: ns) = nodeCount n + nodeCountList ns := by
      simp [nodeCountList, allIdsList, nodeCount]
    simp only [assignKeysList]
    have h1 := assign_keys_counter_le gen n c
    have h2 := assignKeysList_counter_le gen ns (assign_keys gen n c).2
    omega

end

mutual

theorem assign_keys_counter_mono (gen : Nat → String) (t : ResourceNode) (c : Nat) :
    c ≤ (assign_keys gen t c).2 := by
  obtain ⟨name, sid, children⟩ := t
  by_cases h : idTruthy sid
  · simp only [assign_keys, h, if_pos]
    exact assignKeysList_counter_mono gen children c
  · simp only [assign_keys, h, if_neg, Bool.false_eq_true, not_false_eq_true]
    have := assignKeysList_counter_mono gen children (c + 1)
    omega

theorem assignKeysList_counter_mono (gen : Nat → String) (cs : List ResourceNode) (c : Nat) :
    c ≤ (assignKeysList gen cs c).2 := by
  match cs with
  | [] => simp [assignKeysList]
  | n :: ns =>
    simp only [assignKeysList]
    have h1 := assign_keys_counter_mono gen n c
    have h2 := assignKeysList_counter_mono gen ns (assign_keys gen n c).2
    omega

end

/-! ## Uniqueness of identifiers after assignment -/

theorem idStringsOf_mk (nm : String) (sid : Option String) (cs : List ResourceNode) :
    idStringsOf (.mk nm sid cs) = sid.getD "" :: idStringsOfList cs := by
  simp [idStringsOf, allIds, idStringsOfList]

theorem idStringsOfList_cons (n : ResourceNode) (ns : List ResourceNode) :
    idStringsOfList (n :: ns) = idStringsOf n ++ idStringsOfList ns := by
  simp [idStringsOfList, idStringsOf, allIdsList]

theorem truthyStrs_append (a b : List (Option String)) :
    truthyStrs (a ++ b) = truthyStrs a ++ truthyStrs b := by
  simp [truthyStrs]

theorem truthyStrs_cons_truthy (sid : Option String) (l : List (Option String))
    (h : idTruthy sid = true) :
    truthyStrs (sid :: l) = sid.getD "" :: truthyStrs l := by
  match sid with
  | none => simp [idTruthy] at h
  | some s =>
    simp only [idTruthy, Bool.not_eq_true'] at h
    simp [truthyStrs, h]

theorem truthyStrs_cons_falsy (sid : Option String) (l : List (Option String))
    (h : idTruthy sid = false) :
    truthyStrs (sid :: l) = truthyStrs l := by
  match sid with
  | none => simp [truthyStrs]
  | some s =>
    have hs : s.isEmpty = true := by
      cases hh : s.isEmpty
      · rw [idTruthy, hh] at h
        simp at h
      · rfl
    simp [truthyStrs, hs]

theorem mem_truthyStrs_self (sid : Option String) (l : List (Option String))
    (h : idTruthy sid = true) : sid.getD "" ∈ truthyStrs (sid :: l) := by
  rw [truthyStrs_cons_truthy sid l h]
  exact List.mem_cons_self _ _

mutual

theorem assign_keys_ids_nodup (gen : Nat → String)
    (hinj : ∀ m n, gen m = gen n → m = n) (t : ResourceNode) (c : Nat)
    (hnd : (truthyStrs (allIds t)).Nodup)
    (hfresh : ∀ n s, s ∈ truthyStrs (allIds t) → gen n ≠ s) :
    (idStringsOf (assign_keys gen t c).1).Nodup ∧
    (∀ s ∈ idStringsOf (assign_keys gen t c).1,
      s ∈ truthyStrs (allIds t) ∨
      ∃ m, c ≤ m ∧ m < (assign_keys gen t c).2 ∧ s = gen m) := by
  obtain ⟨nm, sid, children⟩ := t
  by_cases h : idTruthy sid
  · rw [allIds, truthyStrs_cons_truthy sid _ h] at hnd hfresh ⊢
    have hnd' : (truthyStrs (allIdsList children)).Nodup := (List.nodup_cons.mp hnd).2
    have hhd : sid.getD "" ∉ truthyStrs (allIdsList children) := (List.nodup_cons.mp hnd).1
    have hfresh' : ∀ n s, s ∈ truthyStrs (allIdsList children) → gen n ≠ s :=
      fun n s hs => hfresh n s (List.mem_cons_of_mem _ hs)
    obtain ⟨ihn, ihm⟩ := assignKeysList_ids_nodup gen hinj children c hnd' hfresh'
    simp only [assign_keys, h, if_pos]
    rw [idStringsOf_mk]
    constructor
    · rw [List.nodup_cons]
      refine ⟨?_, ihn⟩
      intro hmem
      rcases ihm _ hmem with hl | ⟨m, _, _, hs⟩
      · exact hhd hl
      · exact hfresh m (sid.getD "") (List.mem_cons_self _ _) hs.symm
    · intro s hs
      rcases List.mem_cons.mp hs with h0 | h0
      · subst h0
        exact Or.inl (List.mem_cons_self _ _)
      · rcases ihm s h0 with hl | ⟨m, hm1, hm2, hm3⟩
        · exact Or.inl (List.mem_cons_of_mem _ hl)
        · exact Or.inr ⟨m, hm1, hm2, hm3⟩
  · have hf : idTruthy sid = false := by
      cases hh : idTruthy sid
      · rfl
      · exact absurd hh h
    rw [allIds, truthyStrs_cons_falsy sid _ hf] at hnd hfresh ⊢
    obtain ⟨ihn, ihm⟩ := assignKeysList_ids_nodup gen hinj children (c + 1) hnd hfresh
    have hmono := assignKeysList_counter_mono gen children (c + 1)
    simp only [assign_keys, h, if_neg, Bool.false_eq_true, not_false_eq_true]
    rw [idStringsOf_mk]
    constructor
    · rw [List.nodup_cons]
      refine ⟨?_, ihn⟩
      intro hmem
      rcases ihm _ hmem with hl | ⟨m, hm1, hm2, hm3⟩
      · exact hfresh c (Option.getD (some (gen c)) "") hl (by simp)
      · have : c = m := hinj c m (by simpa using hm3)
        omega
    · intro s hs
      rcases List.mem_cons.mp hs with h0 | h0
      · subst h0
        exact Or.inr ⟨c, Nat.le_refl c, by omega, rfl⟩
      · rcases ihm s h0 with hl | ⟨m, hm1, hm2, hm3⟩
        · exact Or.inl hl
        · exact Or.inr ⟨m, by omega, hm2, hm3⟩

theorem assignKeysList_ids_nodup (gen : Nat → String)
    (hinj : ∀ m n, gen m = gen n → m = n) (cs : List ResourceNode) (c : Nat)
    (hnd : (truthyStrs (allIdsList cs)).Nodup)
    (hfresh : ∀ n s, s ∈ truthyStrs (allIdsList cs) → gen n ≠ s) :
    (idStringsOfList (assignKeysList gen cs c).1).Nodup ∧
    (∀ s ∈ idStringsOfList (assignKeysList gen cs c).1,
      s ∈ truthyStrs (allIdsList cs) ∨
      ∃ m, c ≤ m ∧ m < (assignKeysList gen cs c).2 ∧ s = gen m) := by
  match cs with
  | [] =>
    constructor
    · simp [assignKeysList, idStringsOfList, allIdsList]
    · intro s hs
      simp [assignKeysList, idStringsOfList, allIdsList] at hs
  | n :: ns =>
    rw [allIdsList, truthyStrs_append] at hnd hfresh ⊢
    obtain ⟨hnd1, hnd2, hdisj⟩ := List.nodup_append.mp hnd
    have hfresh1 : ∀ m s, s ∈ truthyStrs (allIds n) → gen m ≠ s :=
      fun m s hs => hfresh m s (List.mem_append.mpr (Or.inl hs))
    have hfresh2 : ∀ m s, s ∈ truthyStrs (allIdsList ns) → gen m ≠ s :=
      fun m s hs => hfresh m s (List.mem_append.mpr (Or.inr hs))
    obtain ⟨ihn1, ihm1⟩ := assign_keys_ids_nodup gen hinj n c hnd1 hfresh1
    have hc1 := assign_keys_counter_mono gen n c
    obtain ⟨ihn2, ihm2⟩ :=
      assignKeysList_ids_nodup gen hinj ns (assign_keys gen n c).2 hnd2 hfresh2
    have hc2 := assignKeysList_counter_mono gen ns (assign_keys gen n c).2
    simp only [assignKeysList]
    rw [idStringsOfList_cons]
    constructor
    · rw [List.nodup_append]
      refine ⟨ihn1, ihn2, ?_⟩
      intro x hx1 hx2
      rcases ihm1 x hx1 with ha | ⟨m1, hm11, hm12, hm13⟩
      · rcases ihm2 x hx2 with hb | ⟨m2, hm21, hm22, hm23⟩
        · exact hdisj ha hb
        · exact hfresh1 m2 x ha hm23.symm
      · rcases ihm2 x hx2 with hb | ⟨m2, hm21, hm22, hm23⟩
        · exact hfresh2 m1 x hb hm13.symm
        · have : m1 = m2 := hinj m1 m2 (by rw [← hm13, ← hm23])
          omega
    · intro s hs
      rcases List.mem_append.mp hs with h0 | h0
      · rcases ihm1 s h0 with hl | ⟨m, hm1, hm2, hm3⟩
        · exact Or.inl (List.mem_append.mpr (Or.inl hl))
        · exact Or.inr ⟨m, hm1, by omega, hm3⟩
      · rcases ihm2 s h0 with hl | ⟨m, hm1, hm2, hm3⟩
        · exact Or.inl (List.mem_append.mpr (Or.inr hl))
        · exact Or.inr ⟨m, by omega, hm2, hm3⟩

end

/-! ## The forwarding-rule fold, characterized -/

theorem generate_foldl_eq (after_state : List (String × SnapRecord)) :
    ∀ (b : List (String × SnapRecord)) (fm : List (List (String × PyVal) × Rule)),
    b.foldl
      (fun fm kv =>
        match dictGet after_state kv.1 with
        | none => fm
        | some after_attrs =>
          if kv.2 ≠ after_attrs then
            dictInsert fm (encodeRecord kv.2) ⟨kv.1⟩
          else fm)
      fm = dictUpdate fm (ruleEntries b after_state) := by
  intro b
  induction b with
  | nil => intro fm; rfl
  | cons kv b' ih =>
    intro fm
    rw [List.foldl_cons]
    cases hget : dictGet after_state kv.1 with
    | none =>
      have hch : isChanged after_state kv = false := by
        simp [isChanged, hget]
      simp only [hget]
      rw [ih fm]
      have : ruleEntries (kv :: b') after_state = ruleEntries b' after_state := by
        simp [ruleEntries, changedEntries, List.filter_cons, hch]
      rw [this]
    | some a =>
      by_cases hne : kv.2 ≠ a
      · have hch : isChanged after_state kv = true := by
          simp [isChanged, hget, hne]
        simp only [hget, if_pos hne]
        rw [ih (dictInsert fm (encodeRecord kv.2) ⟨kv.1⟩)]
        have : ruleEntries (kv :: b') after_state =
            (encodeRecord kv.2, (⟨kv.1⟩ : Rule)) :: ruleEntries b' after_state := by
          simp [ruleEntries, changedEntries, List.filter_cons, hch]
        rw [this]
        rfl
      · have hch : isChanged after_state kv = false := by
          simp only [isChanged, hget]
          simpa using hne
        simp only [hget, if_neg hne]
        rw [ih fm]
        have : ruleEntries (kv :: b') after_state = ruleEntries b' after_state := by
          simp [ruleEntries, changedEntries, List.filter_cons, hch]
        rw [this]

theorem generate_eq_dictUpdate (before_state after_state : List (String × SnapRecord)) :
    generate_forwarding_rules before_state after_state =
      dictUpdate [] (ruleEntries before_state after_state) := by
  rw [generate_forwarding_rules]
  exact generate_foldl_eq after_state before_state []

/-- The canonical encoding, computed: the two fields in lexicographic
order of their Python names ("name" sorts before "path_to_root"). -/
theorem encodeRecord_eq (r : SnapRecord) :
    encodeRecord r =
      [("name", PyVal.str r.name), ("path_to_root", PyVal.strTup r.path_to_root)] := rfl

theorem encodeRecord_injective (r1 r2 : SnapRecord)
    (h : encodeRecord r1 = encodeRecord r2) : r1 = r2 := by
  rw [encodeRecord_eq, encodeRecord_eq] at h
  obtain ⟨p1, n1⟩ := r1
  obtain ⟨p2, n2⟩ := r2
  simp [PyVal.str.injEq, PyVal.strTup.injEq] at h
  simp [h.1, h.2]

theorem isChanged_iff (after_state : List (String × SnapRecord))
    (k : String) (r : SnapRecord) :
    isChanged after_state (k, r) = true ↔
      ∃ r', dictGet after_state k = some r' ∧ r' ≠ r := by
  constructor
  · intro h
    rw [isChanged] at h
    cases hget : dictGet after_state k with
    | none => rw [hget] at h; simp at h
    | some a =>
      rw [hget] at h
      simp only [decide_eq_true_eq] at h
      exact ⟨a, rfl, fun he => h he.symm⟩
  · rintro ⟨r', hget, hne⟩
    rw [isChanged, hget]
    simp only [decide_eq_true_eq]
    exact fun he => hne he.symm

theorem val_eq_of_keys_nodup {α β : Type} [DecidableEq α]
    {d : List (α × β)} {k : α} {v1 v2 : β} (hn : (dictKeys d).Nodup)
    (h1 : (k, v1) ∈ d) (h2 : (k, v2) ∈ d) : v1 = v2 := by
  have e1 := dictGet_eq_some_of_mem d k v1 hn h1
  have e2 := dictGet_eq_some_of_mem d k v2 hn h2
  rw [e1] at e2
  injection e2

theorem mem_changedEntries_iff (before_state after_state : List (String × SnapRecord))
    (k : String) (r : SnapRecord) (hkeys : (dictKeys before_state).Nodup) :
    (k, r) ∈ changedEntries before_state after_state ↔
      (dictGet before_state k = some r ∧
        ∃ r', dictGet after_state k = some r' ∧ r' ≠ r) := by
  rw [changedEntries, List.mem_filter]
  constructor
  · rintro ⟨hmem, hch⟩
    exact ⟨dictGet_eq_some_of_mem _ k r hkeys hmem, (isChanged_iff _ k r).mp hch⟩
  · rintro ⟨hget, hch⟩
    exact ⟨mem_of_dictGet_eq_some _ k r hget, (isChanged_iff _ k r).mpr hch⟩

theorem changedEntries_nodup (before_state after_state : List (String × SnapRecord))
    (hkeys : (dictKeys before_state).Nodup) :
    (changedEntries before_state after_state).Nodup := by
  have hmap : (before_state.map (fun kv => kv.1)).Nodup := hkeys
  exact (List.Nodup.of_map _ hmap).filter _

theorem ruleEntries_keys_nodup (before_state after_state : List (String × SnapRecord))
    (hkeys : (dictKeys before_state).Nodup)
    (hinj : ∀ kv1 ∈ changedEntries before_state after_state,
      ∀ kv2 ∈ changedEntries before_state after_state, kv1.2 = kv2.2 → kv1.1 = kv2.1) :
    (dictKeys (ruleEntries before_state after_state)).Nodup := by
  have hnd := changedEntries_nodup before_state after_state hkeys
  have hkeymap : dictKeys (ruleEntries before_state after_state) =
      (changedEntries before_state after_state).map (fun kv => encodeRecord kv.2) := by
    simp [ruleEntries, dictKeys]
  rw [hkeymap]
  refine List.Nodup.map_on ?_ hnd
  intro x hx y hy hxy
  have h2 : x.2 = y.2 := encodeRecord_injective x.2 y.2 hxy
  have h1 : x.1 = y.1 := hinj x hx y hy h2
  obtain ⟨x1, x2⟩ := x
  obtain ⟨y1, y2⟩ := y
  simp only at h1 h2
  rw [h1, h2]

theorem generate_eq_ruleEntries (before_state after_state : List (String × SnapRecord))
    (hkeys : (dictKeys before_state).Nodup)
    (hinj : ∀ kv1 ∈ changedEntries before_state after_state,
      ∀ kv2 ∈ changedEntries before_state after_state, kv1.2 = kv2.2 → kv1.1 = kv2.1) :
    generate_forwarding_rules before_state after_state =
      ruleEntries before_state after_state := by
  rw [generate_eq_dictUpdate]
  rw [dictUpdate_of_disjoint [] _ (ruleEntries_keys_nodup _ _ hkeys hinj)
    (by intro k _ hk; simp [dictKeys] at hk)]
  simp

/-! ## Size bounds (resource use of the traversals) -/

theorem dictInsert_length_le {α β : Type} [DecidableEq α]
    (d : List (α × β)) (k : α) (v : β) :
    (dictInsert d k v).length ≤ d.length + 1 := by
  induction d with
  | nil => simp [dictInsert]
  | cons hd tl ih =>
    obtain ⟨k0, v0⟩ := hd
    by_cases h : k = k0 <;> simp [dictInsert, h]
    omega

theorem dictUpdate_length_le {α β : Type} [DecidableEq α]
    (d e : List (α × β)) :
    (dictUpdate d e).length ≤ d.length + e.length := by
  induction e generalizing d with
  | nil => simp [dictUpdate]
  | cons hd tl ih =>
    obtain ⟨k1, v1⟩ := hd
    have step : dictUpdate d ((k1, v1) :: tl) = dictUpdate (dictInsert d k1 v1) tl := rfl
    rw [step]
    have h1 := ih (dictInsert d k1 v1)
    have h2 := dictInsert_length_le d k1 v1
    simp only [List.length_cons]
    omega

mutual

theorem snapshot_length_le (t : ResourceNode) (path : List String) :
    (create_state_snapshot t path).length ≤ nodeCount t := by
  obtain ⟨nm, sid, children⟩ := t
  have hcount : nodeCount (.mk nm sid children) = 1 + nodeCountList children := by
    simp only [nodeCount, allIds, nodeCountList, List.length_cons]
    omega
  rw [create_state_snapshot]
  by_cases h : idTruthy sid
  · simp only [h, if_pos]
    have := snapshotChildren_length_le children (path ++ [sid.getD ""])
      [(sid.getD "", ⟨path, nm⟩)]
    simp only [List.length_singleton] at this
    omega
  · simp [h, hcount]

theorem snapshotChildren_length_le (cs : List ResourceNode) (path : List String)
    (acc : List (String × SnapRecord)) :
    (snapshotChildren cs path acc).length ≤ acc.length + nodeCountList cs := by
  match cs with
  | [] => simp [snapshotChildren, nodeCountList, allIdsList]
  | c :: cs' =>
    have hcount : nodeCountList (c :: cs') = nodeCount c + nodeCountList cs' := by
      simp [nodeCountList, allIdsList, nodeCount]
    rw [snapshotChildren]
    have h1 := snapshotChildren_length_le cs' path
      (dictUpdate acc (create_state_snapshot c path))
    have h2 := dictUpdate_length_le acc (create_state_snapshot c path)
    have h3 := snapshot_length_le c path
    omega

end

theorem generate_length_le (before_state after_state : List (String × SnapRecord)) :
    (generate_forwarding_rules before_state after_state).length ≤ before_state.length := by
  rw [generate_eq_dictUpdate]
  have h1 := dictUpdate_length_le ([] : List (List (String × PyVal) × Rule))
    (ruleEntries before_state after_state)
  have h2 : (ruleEntries before_state after_state).length ≤ before_state.length := by
    rw [ruleEntries, List.length_map]
    exact List.length_filter_le _ _
  simp only [List.length_nil] at h1
  omega

mutual

theorem assign_keys_nodeCount (gen : Nat → String) (t : ResourceNode) (c : Nat) :
    nodeCount (assign_keys gen t c).1 = nodeCount t := by
  obtain ⟨nm, sid, children⟩ := t
  by_cases h : idTruthy sid
  · simp only [assign_keys, h, if_pos, nodeCount, allIds, List.length_cons]
    have := assignKeysList_nodeCount gen children c
    simp only [nodeCountList] at this
    omega
  · simp only [assign_keys, h, if_neg, Bool.false_eq_true, not_false_eq_true,
      nodeCount, allIds, List.length_cons]
    have := assignKeysList_nodeCount gen children (c + 1)
    simp only [nodeCountList] at this
    omega

theorem assignKeysList_nodeCount (gen : Nat → String) (cs : List ResourceNode) (c : Nat) :
    nodeCountList (assignKeysList gen cs c).1 = nodeCountList cs := by
  match cs with
  | [] => rfl
  | n :: ns =>
    simp only [assignKeysList, nodeCountList, allIdsList, List.length_append]
    have h1 := assign_keys_nodeCount gen n c
    have h2 := assignKeysList_nodeCount gen ns (assign_keys gen n c).2
    simp only [nodeCount, nodeCountList] at h1 h2
    omega

end

/-! ## Concrete fixtures -/

theorem gen0_ne_empty : ∀ n, gen0 n ≠ "" := by
  intro n h
  have hd := congrArg String.data h
  simp [gen0] at hd

theorem gen0_injective : ∀ m n, gen0 m = gen0 n → m = n := by
  intro m n h
  have hd := congrArg (fun s : String => s.data.length) h
  simpa [gen0] using hd

/-! ## The claims -/

/-- Claim C1, amended: for snapshots with unique keys, and provided no two
distinct changed identifiers carry equal before-records (so that their
canonical encodings cannot collide), the result of
generate_forwarding_rules holds a rule at the canonical encoding of a
record r with target k exactly when k is in both snapshots with
before-record r and a different after-record.  The unamended claim fails
when two changed identifiers share one before-record: the two rules land
on the same canonical key and the later one overwrites the earlier, see
the counterexample. -/
theorem claim_C1_rule_iff
    (before_state after_state : List (String × SnapRecord))
    (hkeys : (dictKeys before_state).Nodup)
    (hinj : ∀ kv1 ∈ changedEntries before_state after_state,
      ∀ kv2 ∈ changedEntries before_state after_state, kv1.2 = kv2.2 → kv1.1 = kv2.1)
    (k : String) (r : SnapRecord) :
    dictGet (generate_forwarding_rules before_state after_state)
        (encodeRecord r) = some ⟨k⟩ ↔
      (dictGet before_state k = some r ∧
        ∃ r', dictGet after_state k = some r' ∧ r' ≠ r) := by
  rw [generate_eq_ruleEntries before_state after_state hkeys hinj]
  constructor
  · intro h
    have hmem := mem_of_dictGet_eq_some _ _ _ h
    rw [ruleEntries] at hmem
    obtain ⟨kv, hkv, heq⟩ := List.mem_map.mp hmem
    obtain ⟨k1, r1⟩ := kv
    rw [Prod.mk.injEq] at heq
    obtain ⟨he1, he2⟩ := heq
    have hr : r1 = r := encodeRecord_injective r1 r he1
    have hk : k1 = k := by injection he2
    subst hr
    subst hk
    exact (mem_changedEntries_iff _ _ k1 r1 hkeys).mp hkv
  · intro h
    have hmem : (k, r) ∈ changedEntries before_state after_state :=
      (mem_changedEntries_iff _ _ k r hkeys).mpr h
    have hmm : (encodeRecord r, (⟨k⟩ : Rule)) ∈ ruleEntries before_state after_state := by
      rw [ruleEntries]
      exact List.mem_map.mpr ⟨(k, r), hmem, rfl⟩
    exact dictGet_eq_some_of_mem _ _ _ (ruleEntries_keys_nodup _ _ hkeys hinj) hmm

/-- Witness for claim C1 at a concrete rename: the rule for the moved
node is present with the right target. -/
theorem claim_C1_witness :
    dictGet (generate_forwarding_rules beforeW afterW)
      (encodeRecord ⟨["r"], "x"⟩) = some ⟨"a"⟩ :=
  (claim_C1_rule_iff beforeW afterW (by decide) (by decide) "a" ⟨["r"], "x"⟩).mpr
    ⟨by decide, ⟨⟨["r"], "y"⟩, by decide, by decide⟩⟩

/-- Counterexample to claim C1 as stated: in the collision scenario both
leaves "a" and "b" changed and have equal before-records; the map holds a
rule at that encoding, but it points at "b", not at "a", so the claimed
rule for "a" is absent. -/
theorem claim_C1_counterexample :
    dictGet beforeCol "a" = some ⟨["r"], "x"⟩ ∧
    dictGet afterCol "a" = some ⟨["r", "c"], "x"⟩ ∧
    ((⟨["r"], "x"⟩ : SnapRecord) ≠ ⟨["r", "c"], "x"⟩) ∧
    dictGet (generate_forwarding_rules beforeCol afterCol)
      (encodeRecord ⟨["r"], "x"⟩) ≠ some ⟨"a"⟩ := by
  refine ⟨by decide, by decide, by decide, by decide⟩

/-- Claim C2, amended: under the same no-encoding-collision hypothesis as
C1, the number of rules equals the number of before-entries whose
identifier is present in the after snapshot with a different record.
Unamended the claim fails on the collision scenario: two changed nodes,
one rule. -/
theorem claim_C2_rule_count
    (before_state after_state : List (String × SnapRecord))
    (hkeys : (dictKeys before_state).Nodup)
    (hinj : ∀ kv1 ∈ changedEntries before_state after_state,
      ∀ kv2 ∈ changedEntries before_state after_state, kv1.2 = kv2.2 → kv1.1 = kv2.1) :
    (generate_forwarding_rules before_state after_state).length =
      (changedEntries before_state after_state).length := by
  rw [generate_eq_ruleEntries before_state after_state hkeys hinj, ruleEntries,
    List.length_map]

/-- Witness for claim C2 at the concrete rename scenario. -/
theorem claim_C2_witness :
    (generate_forwarding_rules beforeW afterW).length =
      (changedEntries beforeW afterW).length :=
  claim_C2_rule_count beforeW afterW (by decide) (by decide)

/-- Counterexample to claim C2 as stated: two nodes moved, but only one
rule survives because their canonical encodings coincide. -/
theorem claim_C2_counterexample :
    (changedEntries beforeCol afterCol).length = 2 ∧
    (generate_forwarding_rules beforeCol afterCol).length = 1 := by
  refine ⟨by decide, by decide⟩

/-- Claim C3: on a tree in which every node has a truthy stable id and
the ids are pairwise distinct, create_state_snapshot from the empty path
returns one entry per node (exactly N entries, keyed by the pre-order
list of all node ids), and every node occurring at depth d with ancestor
ids anc gets the record with path_to_root equal to anc (whose length is
d) and name equal to its current name. -/
theorem claim_C3_snapshot_complete (t : ResourceNode)
    (h1 : allTruthy t = true) (h2 : (idStringsOf t).Nodup)
    (d : Nat) (anc : List String) (n : ResourceNode) (ho : OccursAt t d anc n) :
    (create_state_snapshot t []).length = nodeCount t ∧
    dictKeys (create_state_snapshot t []) = idStringsOf t ∧
    anc.length = d ∧
    dictGet (create_state_snapshot t []) (n.stable_id.getD "") =
      some ⟨anc, n.name⟩ := by
  have hkeys : dictKeys (preorderEntries t []) = idStringsOf t :=
    preorderEntries_keys t [] h1
  have hnd : (dictKeys (preorderEntries t [])).Nodup := by
    rw [hkeys]
    exact h2
  have heq : create_state_snapshot t [] = preorderEntries t [] :=
    snapshot_eq_preorderEntries t [] hnd
  refine ⟨?_, ?_, ho.length_eq, ?_⟩
  · rw [heq]
    exact preorderEntries_length t [] h1
  · rw [heq, hkeys]
  · rw [heq]
    have := preorderEntries_dictGet_of_occurs ho [] h1 hnd
    simpa using this

/-- Witness for claim C3: the concrete three-level tree, checked at the
grandchild (depth 2, ancestors root and a). -/
theorem claim_C3_witness :
    (create_state_snapshot tFull []).length = nodeCount tFull ∧
    dictKeys (create_state_snapshot tFull []) = idStringsOf tFull ∧
    (["r", "ida"] : List String).length = 2 ∧
    dictGet (create_state_snapshot tFull [])
        ((ResourceNode.mk "b" (some "idb") []).stable_id.getD "") =
      some ⟨["r", "ida"], (ResourceNode.mk "b" (some "idb") []).name⟩ :=
  claim_C3_snapshot_complete tFull (by decide) (by decide) 2 ["r", "ida"]
    (.mk "b" (some "idb") [])
    (OccursAt.child (List.mem_cons_self _ _)
      (OccursAt.child (List.mem_cons_self _ _) (OccursAt.here _)))

/-- Claim C4: assignment is idempotent.  Provided the generator never
yields the empty string (a uuid string never is), one run leaves every
node with a truthy id while preserving every already-truthy id and every
name in place, and a second run (under any generator and counter) is the
identity. -/
theorem claim_C4_idempotent (gen gen2 : Nat → String) (t : ResourceNode)
    (c c2 : Nat) (hg : ∀ n, gen n ≠ "") :
    allTruthy (assign_keys gen t c).1 = true ∧
    idPreserved t (assign_keys gen t c).1 = true ∧
    assign_keys gen2 (assign_keys gen t c).1 c2 = ((assign_keys gen t c).1, c2) := by
  have h1 := assign_keys_allTruthy gen hg t c
  exact ⟨h1, assign_keys_preserves gen t c, assign_keys_noop gen2 _ c2 h1⟩

/-- Witness for claim C4 on the concrete partially identified tree. -/
theorem claim_C4_witness :
    allTruthy (assign_keys gen0 tPart 0).1 = true ∧
    idPreserved tPart (assign_keys gen0 tPart 0).1 = true ∧
    assign_keys gen0 (assign_keys gen0 tPart 0).1 5 =
      ((assign_keys gen0 tPart 0).1, 5) :=
  claim_C4_idempotent gen0 gen0 tPart 0 5 gen0_ne_empty

/-- Claim C5, amended: after assign_keys, every node has a non-empty id
and the ids are pairwise distinct — hence the deduplicated id list has
exactly one entry per node — provided the generator is injective, never
empty, never collides with a pre-assigned id, and the pre-assigned
truthy ids are themselves distinct.  The unamended claim (over every
tree) fails when two nodes arrive with the same pre-assigned id:
assignment never rewrites a truthy id, so the duplicate survives, see
the counterexample. -/
theorem claim_C5_unique_ids (gen : Nat → String) (t : ResourceNode) (c : Nat)
    (hg : ∀ n, gen n ≠ "")
    (hinj : ∀ m n, gen m = gen n → m = n)
    (hnd : (truthyStrs (allIds t)).Nodup)
    (hfresh : ∀ n s, s ∈ truthyStrs (allIds t) → gen n ≠ s) :
    allTruthy (assign_keys gen t c).1 = true ∧
    ((idStringsOf (assign_keys gen t c).1).dedup).length = nodeCount t := by
  have h1 := assign_keys_allTruthy gen hg t c
  have h2 := (assign_keys_ids_nodup gen hinj t c hnd hfresh).1
  refine ⟨h1, ?_⟩
  rw [List.dedup_eq_self.mpr h2]
  have h3 : (idStringsOf (assign_keys gen t c).1).length =
      nodeCount (assign_keys gen t c).1 := by
    simp [idStringsOf, nodeCount]
  rw [h3, assign_keys_nodeCount]

/-- Witness for claim C5 on a concrete unidentified tree with the
injective generator gen0. -/
theorem claim_C5_witness :
    allTruthy (assign_keys gen0 tFresh 0).1 = true ∧
    ((idStringsOf (assign_keys gen0 tFresh 0).1).dedup).length = nodeCount tFresh :=
  claim_C5_unique_ids gen0 tFresh 0 gen0_ne_empty gen0_injective (by decide)
    (by
      intro n s hs
      rw [show truthyStrs (allIds tFresh) = [] from rfl] at hs
      exact absurd hs (List.not_mem_nil s))

/-- Counterexample to claim C5 as stated: the two-node tree whose nodes
both arrive with the pre-assigned id "x".  assign_keys (with the
injective, never-empty generator gen0, which never repeats a value)
changes nothing, so the id set has one element for two nodes. -/
theorem claim_C5_counterexample :
    nodeCount tDup = 2 ∧
    ((idStringsOf (assign_keys gen0 tDup 0).1).dedup).length = 1 := by
  refine ⟨by decide, by decide⟩

/-- Claim C6: a node whose stable id is falsy (absent, or the empty
string) yields the empty snapshot for every accumulated path — the node
and its whole subtree are silently omitted; the embedding is a total
function, mirroring that the Python code raises nothing on this path. -/
theorem claim_C6_missing_id_empty (t : ResourceNode) (path : List String)
    (h : idTruthy t.stable_id = false) :
    create_state_snapshot t path = [] := by
  obtain ⟨nm, sid, cs⟩ := t
  simp only [ResourceNode.stable_id] at h
  rw [create_state_snapshot]
  simp [h]

/-- Witness for claim C6: the concrete orphan node with an assigned
child still contributes nothing. -/
theorem claim_C6_witness :
    create_state_snapshot nOrphan ["p"] = [] :=
  claim_C6_missing_id_empty nOrphan ["p"] (by decide)

/-- Claim C7: the value the snapshot holds at any key is the record of
the last entry carrying that key in the document-order entry stream
(self first, then children left to right) — so when two nodes share one
stable id, the later-visited node's record deterministically wins. -/
theorem claim_C7_later_visit_wins (t : ResourceNode) (path : List String)
    (k : String) :
    dictGet (create_state_snapshot t path) k =
      lookupLast (preorderEntries t path) k :=
  snapshot_dictGet_eq_lookupLast t path k

/-- Claim C8: generate_forwarding_rules is deterministic — equal snapshot
values give equal results — and the canonical encoding is a function of
the record value alone: it always lists the two fields in lexicographic
order of their Python names, and two records encode identically exactly
when they are equal. -/
theorem claim_C8_deterministic (b1 b2 a1 a2 : List (String × SnapRecord))
    (hb : b1 = b2) (ha : a1 = a2) (r r1 r2 : SnapRecord) :
    generate_forwarding_rules b1 a1 = generate_forwarding_rules b2 a2 ∧
    encodeRecord r =
      [("name", PyVal.str r.name), ("path_to_root", PyVal.strTup r.path_to_root)] ∧
    (encodeRecord r1 = encodeRecord r2 ↔ r1 = r2) := by
  subst hb
  subst ha
  exact ⟨rfl, encodeRecord_eq r,
    ⟨encodeRecord_injective r1 r2, fun h => by rw [h]⟩⟩

/-- Witness for claim C8 at concrete snapshots and records. -/
theorem claim_C8_witness :
    generate_forwarding_rules beforeW afterW =
      generate_forwarding_rules beforeW afterW ∧
    encodeRecord ⟨["p"], "n"⟩ =
      [("name", PyVal.str "n"), ("path_to_root", PyVal.strTup ["p"])] ∧
    (encodeRecord ⟨["p"], "n"⟩ = encodeRecord ⟨["p"], "m"⟩ ↔
      (⟨["p"], "n"⟩ : SnapRecord) = ⟨["p"], "m"⟩) :=
  claim_C8_deterministic beforeW beforeW afterW afterW rfl rfl
    ⟨["p"], "n"⟩ ⟨["p"], "n"⟩ ⟨["p"], "m"⟩

/-- Claim C9: the traversals terminate with bounded work — they are total
structurally recursive functions, the assignment counter advances by at
most one generated id per node (and never decreases), a snapshot has at
most one entry per node, and the rule map has at most one rule per
before-entry.  None of the operations has an error outcome: each is a
total function into plain values. -/
theorem claim_C9_total_bounded (gen : Nat → String) (t : ResourceNode)
    (c : Nat) (path : List String)
    (before_state after_state : List (String × SnapRecord)) :
    c ≤ (assign_keys gen t c).2 ∧
    (assign_keys gen t c).2 ≤ c + nodeCount t ∧
    (create_state_snapshot t path).length ≤ nodeCount t ∧
    (generate_forwarding_rules before_state after_state).length ≤
      before_state.length :=
  ⟨assign_keys_counter_mono gen t c, assign_keys_counter_le gen t c,
    snapshot_length_le t path, generate_length_le before_state after_state⟩

/-- Claim C10: the empty string counts as no identifier: a node whose
reserved slot holds "" behaves exactly like one whose slot is absent —
assign_keys overwrites it with the freshly generated id, and
create_state_snapshot omits the node (empty mapping), just as for an
unassigned node. -/
theorem claim_C10_empty_string_unassigned (nm : String)
    (cs : List ResourceNode) (gen : Nat → String) (c : Nat)
    (path : List String) :
    assign_keys gen (.mk nm (some "") cs) c = assign_keys gen (.mk nm none cs) c ∧
    ((assign_keys gen (.mk nm (some "") cs) c).1).stable_id = some (gen c) ∧
    create_state_snapshot (.mk nm (some "") cs) path = [] ∧
    create_state_snapshot (.mk nm none cs) path = [] := by
  have h1 : idTruthy (some "") = false := rfl
  have h2 : idTruthy (none : Option String) = false := rfl
  refine ⟨?_, ?_, ?_, ?_⟩
  · simp [assign_keys, h1, h2]
  · simp [assign_keys, h1, ResourceNode.stable_id]
  · rw [create_state_snapshot]
    simp [h1]
  · rw [create_state_snapshot]
    simp [h2]
